import Mathlib

/-!
Verification development for the `dynamo-backup-to-s3` export pipeline.

The JavaScript source is shallowly embedded:
* `RStream` models `lib/readable-stream.js` (the push/pull sink);
* `JVal` models JavaScript values (DynamoDB records are objects whose
  attribute values are single-key typed-value objects);
* `formatForDataPipeline` / `getDataPipelineAttributeValueKey` model
  `DynamoBackup.prototype._formatForDataPipeline` and
  `_getDataPipelineAttributeValueKey`;
* `base64EncodeItem` models the base64 re-encoding loop in `backupTable`;
* `streamItems` models `DynamoBackup.prototype._streamItems` run against a
  scripted list of scan responses;
* `fetchTables` models `DynamoBackup.prototype._fetchTables`;
* `tablesToBackup` and `backupAllTablesRun` model
  `DynamoBackup.prototype.backupAllTables` (the `async.each` collaborator is
  modelled by its documented contract: every task runs, the aggregate
  callback receives the first error passed to `done`, tasks are never
  cancelled);
* `sampleLimit` models the limit computation in `_copyTable`, with
  JavaScript `| 0` embedded as truncation followed by 32-bit wrap-around.
-/

/-! ## JavaScript values -/

mutual
/-- A JavaScript value as manipulated by the backup code: strings, booleans,
`null`, `undefined`, arrays and (ordered-key) objects. -/
inductive JVal where
  | str (s : String)
  | bool (b : Bool)
  | null
  | undefined
  | arr (elems : JList)
  | obj (entries : JObj)
deriving DecidableEq, Repr

/-- The element list of a JavaScript array. -/
inductive JList where
  | nil
  | cons (head : JVal) (tail : JList)
deriving DecidableEq, Repr

/-- The ordered key/value entries of a JavaScript object. -/
inductive JObj where
  | nil
  | cons (key : String) (value : JVal) (tail : JObj)
deriving DecidableEq, Repr
end

/-- Does the object have a given own key? -/
def JObj.hasKey : JObj → String → Bool
  | .nil, _ => false
  | .cons k _ rest, key => k == key || rest.hasKey key

/-- Reading a property: `o[key]`, `undefined` when absent. -/
def JObj.get : JObj → String → JVal
  | .nil, _ => .undefined
  | .cons k v rest, key => if k == key then v else rest.get key

/-- JavaScript property assignment `o[key] = v`: overwrite in place when the
key exists, otherwise append the key at the end (JS insertion order). -/
def JObj.set : JObj → String → JVal → JObj
  | .nil, key, v => .cons key v .nil
  | .cons k w rest, key, v =>
      if k == key then .cons k v rest else .cons k w (rest.set key v)

/-- The keys of an object, in order. -/
def JObj.keys : JObj → List String
  | .nil => []
  | .cons k _ rest => k :: rest.keys

mutual
/-- `JSON.stringify` drops object members whose value is `undefined`; this
is that pruning at the value level (array members are kept — the backup
code never stores `undefined` in an array). -/
def stripUndef : JVal → JVal
  | .obj entries => .obj (stripUndefObj entries)
  | .arr elems => .arr (stripUndefList elems)
  | v => v

def stripUndefList : JList → JList
  | .nil => .nil
  | .cons v rest => .cons (stripUndef v) (stripUndefList rest)

def stripUndefObj : JObj → JObj
  | .nil => .nil
  | .cons k v rest =>
      if v = .undefined then stripUndefObj rest
      else .cons k (stripUndef v) (stripUndefObj rest)
end

/-! ## `_getDataPipelineAttributeValueKey` (part_000 lines 250-270) -/

/-- JavaScript `toLowerCase()` as the per-character ASCII lowering (the
tags it is applied to are ASCII). -/
def jsToLowerCase (s : String) : String := ⟨s.data.map Char.toLower⟩

/-- `DynamoBackup.prototype._getDataPipelineAttributeValueKey`: the switch
over the DynamoDB type tag; unknown tags throw. -/
def getDataPipelineAttributeValueKey (type_ : String) : Except String String :=
  if type_ = "S" ∨ type_ = "N" ∨ type_ = "B" ∨ type_ = "M" ∨ type_ = "L" ∨ type_ = "NULL" then
    Except.ok (jsToLowerCase type_)
  else if type_ = "BOOL" then Except.ok "bOOL"
  else if type_ = "SS" then Except.ok "sS"
  else if type_ = "NS" then Except.ok "nS"
  else if type_ = "BS" then Except.ok "bS"
  else Except.error ("Unknown AttributeValue key: " ++ type_)

/-- The tags accepted by `_getDataPipelineAttributeValueKey`. -/
def knownTag (t : String) : Bool :=
  ["S", "N", "B", "M", "L", "NULL", "BOOL", "SS", "NS", "BS"].contains t

/-! ## `_formatForDataPipeline` (part_000 lines 233-248)

The JS function mutates every attribute value of the record in place: for
each original key `k` of a typed-value object it computes the replacement
key, assigns `value[newKey] = v`, sets `value[k] = undefined`, and for `M`
and `L` payloads recurses into the payload (which, being held by
reference, is mutated before the record is serialized).  lodash's `each`
iterates a snapshot of the keys taken before the loop, so keys added
during the loop are not revisited.  `renameTagEntries` walks that
snapshot computing, for each original entry, the replacement key and the
(recursively formatted) payload; `applyRenames` then performs the two
assignments per entry in the same order the JS loop does. -/

/-- One rename step of the JS loop body: `value[newKey] = v; value[k] = undefined`. -/
def applyRename (current : JObj) (k newKey : String) (v : JVal) : JObj :=
  (current.set newKey v).set k .undefined

/-- Fold the per-entry assignments over the snapshot, in iteration order. -/
def applyRenames : JObj → List (String × String × JVal) → JObj
  | current, [] => current
  | current, (k, newKey, v) :: rest => applyRenames (applyRename current k newKey v) rest

mutual
/-- `DynamoBackup.prototype._formatForDataPipeline` on a record (object) or,
through the `L` recursion, an array of typed values, up to serialization:
each contained attribute value has its type tags renamed.  (lodash `each`
over other value shapes is outside the record domain this development
states claims about; those shapes are returned unchanged.) -/
def formatForDataPipeline : JVal → Except String JVal
  | .obj entries => (formatEntries entries).map JVal.obj
  | .arr elems => (formatElems elems).map JVal.arr
  | v => pure v

def formatEntries : JObj → Except String JObj
  | .nil => pure .nil
  | .cons name value rest => do
      let value2 ← formatValue value
      let rest2 ← formatEntries rest
      pure (.cons name value2 rest2)

def formatElems : JList → Except String JList
  | .nil => pure .nil
  | .cons value rest => do
      let value2 ← formatValue value
      let rest2 ← formatElems rest
      pure (.cons value2 rest2)

/-- The inner `_.each(value, function(v, k) ...)` over one typed-value
object: rename every tag key, recursing into `M`/`L` payloads. -/
def formatValue : JVal → Except String JVal
  | .obj entries => do
      let procs ← renameTagEntries entries
      pure (.obj (applyRenames entries procs))
  | v => pure v

def renameTagEntries : JObj → Except String (List (String × String × JVal))
  | .nil => pure []
  | .cons k v rest => do
      let newKey ← getDataPipelineAttributeValueKey k
      let v2 ← if k = "M" ∨ k = "L" then formatForDataPipeline v else pure v
      let rest2 ← renameTagEntries rest
      pure ((k, newKey, v2) :: rest2)
end

/-! ## Well-formed DynamoDB records and the spec-side rename

`wfItem` captures a well-formed DynamoDB wire-format record: every
attribute value is a single-key typed-value object whose tag is one of the
ten known tags, `M`/`L` payloads are themselves well formed, `B` payloads
are strings, and other payloads contain no `undefined`. -/

mutual
def noUndef : JVal → Bool
  | .undefined => false
  | .obj entries => noUndefObj entries
  | .arr elems => noUndefList elems
  | _ => true

def noUndefList : JList → Bool
  | .nil => true
  | .cons v rest => noUndef v && noUndefList rest

def noUndefObj : JObj → Bool
  | .nil => true
  | .cons _ v rest => noUndef v && noUndefObj rest
end

def JVal.isStr : JVal → Bool
  | .str _ => true
  | _ => false

mutual
/-- A record (object of attribute name → typed value) or — as the target
of the `L` recursion — an array of typed values. -/
def wfItem : JVal → Bool
  | .obj entries => wfEntries entries
  | .arr elems => wfElems elems
  | _ => false

def wfEntries : JObj → Bool
  | .nil => true
  | .cons _ v rest => wfValue v && wfEntries rest

def wfElems : JList → Bool
  | .nil => true
  | .cons v rest => wfValue v && wfElems rest

/-- A single-key typed value with a known tag and a well-shaped payload. -/
def wfValue : JVal → Bool
  | .obj (.cons k payload .nil) =>
      knownTag k &&
      (if k = "M" ∨ k = "L" then wfItem payload
       else if k = "B" then payload.isStr
       else noUndef payload)
  | _ => false
end

/-- Modelled from the spec: the tag-renaming table of §4.4 (lowercase for
`S`,`N`,`B`,`M`,`L`,`NULL`; `bOOL`; `sS`; `nS`; `bS`). -/
def specTagKey (t : String) : String :=
  if t = "BOOL" then "bOOL"
  else if t = "SS" then "sS"
  else if t = "NS" then "nS"
  else if t = "BS" then "bS"
  else jsToLowerCase t

mutual
/-- Modelled from the spec: replace each typed-value tag key by the fixed
table's output key with the value unchanged, recursing into `M`/`L`
payloads, preserving sibling attributes and their order. -/
def specRenameItem : JVal → JVal
  | .obj entries => .obj (specRenameEntries entries)
  | .arr elems => .arr (specRenameElems elems)
  | v => v

def specRenameEntries : JObj → JObj
  | .nil => .nil
  | .cons n v rest => .cons n (specRenameValue v) (specRenameEntries rest)

def specRenameElems : JList → JList
  | .nil => .nil
  | .cons v rest => .cons (specRenameValue v) (specRenameElems rest)

def specRenameValue : JVal → JVal
  | .obj (.cons k payload .nil) =>
      .obj (.cons (specTagKey k)
        (if k = "M" ∨ k = "L" then specRenameItem payload else payload) .nil)
  | v => v
end

/-! ## Records containing an unknown type tag (for the fail-fast claim) -/

mutual
/-- The record contains — at a position the transform's traversal visits —
a typed-value tag outside the known set. -/
def itemHasBadTag : JVal → Bool
  | .obj entries => entriesHaveBadTag entries
  | .arr elems => elemsHaveBadTag elems
  | _ => false

def entriesHaveBadTag : JObj → Bool
  | .nil => false
  | .cons _ v rest => valueHasBadTag v || entriesHaveBadTag rest

def elemsHaveBadTag : JList → Bool
  | .nil => false
  | .cons v rest => valueHasBadTag v || elemsHaveBadTag rest

def valueHasBadTag : JVal → Bool
  | .obj entries => tagEntriesHaveBadTag entries
  | _ => false

def tagEntriesHaveBadTag : JObj → Bool
  | .nil => false
  | .cons k v rest =>
      !knownTag k || ((k == "M" || k == "L") && itemHasBadTag v) || tagEntriesHaveBadTag rest
end

/-! ## The base64 re-encoding loop (`backupTable`, part_000 lines 93-100)

`_.each(item, function(value) { if (value && value.B) { value.B =
new Buffer(value.B).toString('base64'); } })` — only the top-level
attribute values are visited, and only their `B` member is rewritten.
The byte-level base64 codec is abstracted as `enc`. -/

/-- JavaScript truthiness of the value shapes in the model. -/
def jsTruthy : JVal → Bool
  | .str s => !(s == "")
  | .bool b => b
  | .null => false
  | .undefined => false
  | .arr _ => true
  | .obj _ => true

/-- `value.B` — property read on an arbitrary value (`undefined` off objects). -/
def jsGetB : JVal → JVal
  | .obj entries => entries.get "B"
  | _ => .undefined

/-- `new Buffer(value.B).toString('base64')` on a string payload. -/
def bufferBase64 (enc : String → String) : JVal → JVal
  | .str s => .str (enc s)
  | v => v

/-- The loop body: rewrite `value.B` when `value` and `value.B` are truthy. -/
def base64EncodeValue (enc : String → String) (value : JVal) : JVal :=
  if jsTruthy value && jsTruthy (jsGetB value) then
    match value with
    | .obj entries => .obj (entries.set "B" (bufferBase64 enc (entries.get "B")))
    | v => v
  else value

def base64EncodeEntries (enc : String → String) : JObj → JObj
  | .nil => .nil
  | .cons n v rest => .cons n (base64EncodeValue enc v) (base64EncodeEntries enc rest)

/-- The whole `_.each(item, ...)` loop over a record's attribute values. -/
def base64EncodeItem (enc : String → String) : JVal → JVal
  | .obj entries => .obj (base64EncodeEntries enc entries)
  | v => v

/-- Modelled from the spec: re-encode exactly the top-level `B` payloads,
leaving `BS` values, nested values and non-binary attributes unchanged. -/
def specBase64Value (enc : String → String) : JVal → JVal
  | .obj (.cons k (.str s) .nil) =>
      if k = "B" then .obj (.cons k (.str (enc s)) .nil)
      else .obj (.cons k (.str s) .nil)
  | v => v

def specBase64Entries (enc : String → String) : JObj → JObj
  | .nil => .nil
  | .cons n v rest => .cons n (specBase64Value enc v) (specBase64Entries enc rest)

def specBase64Item (enc : String → String) : JVal → JVal
  | .obj entries => .obj (specBase64Entries enc entries)
  | v => v

/-! ## `lib/readable-stream.js` — the StreamSink

State: `_data` is the single pending chunk (`this._data`), `pushed` the
chunks handed to the stream's internal buffer by `this.push(...)`, which
the consumer receives in order.  `_read()` pushes the pending chunk and
clears it; pushing a zero-length string adds no chunk (Node semantics for
zero-length pushes in string mode).  `append(data)` assigns
`this._data = data` and calls `this.read(0)`; `Stream.Readable.read(0)`
invokes `_read()` only when the stream wants more data (its internal
buffer sits below the high-water mark) — `wantsData` is that
environment-determined condition at the moment of the call. -/

structure RStream where
  _data : String
  pushed : List String
deriving DecidableEq, Repr

def RStream.init : RStream := { _data := "", pushed := [] }

/-- `_read()` (lines 11-15): push the pending chunk, then clear it. -/
def RStream.readUnderscore (s : RStream) : RStream :=
  { _data := "",
    pushed := s.pushed ++ (if s._data = "" then [] else [s._data]) }

/-- `append(data)` (lines 17-20): overwrite `this._data`, then `read(0)`,
which runs `_read()` exactly when the stream currently wants data. -/
def RStream.append (wantsData : Bool) (data : String) (s : RStream) : RStream :=
  let s2 := { s with _data := data }
  if wantsData then s2.readUnderscore else s2

/-! ## `_streamItems` (part_000 lines 176-203)

The paginator is run against a script: the list of responses the `scan`
endpoint returns to the successive requests.  The result is the list of
item batches handed to `itemsReceived`, or the error passed to the
completion callback.  `scanRequests` counts the scan requests issued
against the same script (a request is issued even when the script has no
response for it). -/

inductive ScanResp (ι : Type) where
  | fail (err : String)
  | ok (Items : List ι) (LastEvaluatedKey : Option (List String))

/-- `!data.LastEvaluatedKey || _.keys(data.LastEvaluatedKey).length === 0`
— the token is absent or an object with zero keys. -/
def lekAbsent : Option (List String) → Bool
  | none => true
  | some ks => ks.isEmpty

def streamItems {ι : Type} : List (ScanResp ι) → Except String (List (List ι))
  | [] => Except.error "no scripted response"
  | .fail e :: _ => Except.error e
  | .ok items lek :: rest =>
      let delivered := if items.length > 0 then [items] else []
      if lekAbsent lek then Except.ok delivered
      else (streamItems rest).map (fun bs => delivered ++ bs)

def scanRequests {ι : Type} : List (ScanResp ι) → Nat
  | [] => 1
  | .fail _ :: _ => 1
  | .ok _ lek :: rest => if lekAbsent lek then 1 else 1 + scanRequests rest

/-- The chunks `backupTable` appends to the sink for one delivered batch
(lines 93-108): per item, one serialized line then one newline chunk.
`serialize` stands for the configured per-item serialization
(`JSON.stringify` or the data-pipeline format). -/
def backupLines {ι : Type} (serialize : ι → String) (items : List ι) : List String :=
  items.flatMap (fun item => [serialize item, "\n"])

/-- All chunks appended over a whole scan, in order. -/
def backupAppended {ι : Type} (serialize : ι → String) (batches : List (List ι)) : List String :=
  batches.flatMap (backupLines serialize)

/-- The script a table with the given pages produces: one `ok` response per
page, a non-empty continuation key object on every page but the last,
none (or any empty object — covered by `lekAbsent`) on the last. -/
inductive ScriptFor {ι : Type} : List (ScanResp ι) → List (List ι) → Prop
  | last (p : List ι) (lek : Option (List String)) (h : lekAbsent lek = true) :
      ScriptFor [ScanResp.ok p lek] [p]
  | more (p : List ι) (lek : Option (List String)) (rest : List (ScanResp ι))
      (ps : List (List ι)) (h : lekAbsent lek = false) (hs : ScriptFor rest ps) :
      ScriptFor (ScanResp.ok p lek :: rest) (p :: ps)

/-! ## `_fetchTables` (part_000 lines 205-224)

Run against a script of list-tables responses; returns the markers the
successive requests carried (`null` for the first) and the outcome the
final callback receives.  `if (lastTable)` and
`if (data.LastEvaluatedTableName)` are JavaScript truthiness tests, so an
empty-string marker counts as absent. -/

inductive ListResp where
  | fail (err : String)
  | ok (TableNames : List String) (LastEvaluatedTableName : Option String)

def strTruthy : Option String → Bool
  | none => false
  | some s => !(s == "")

def fetchTables : Option String → List String → List ListResp →
    List (Option String) × Except String (List String)
  | lastTable, _, [] => ([lastTable], Except.error "no scripted response")
  | lastTable, _, .fail e :: _ => ([lastTable], Except.error e)
  | lastTable, tables, .ok names lek :: rest =>
      let tables2 := tables ++ names
      if strTruthy lek then
        let next := fetchTables lek tables2 rest
        (lastTable :: next.1, next.2)
      else ([lastTable], Except.ok tables2)

/-- `listTables` (lines 45-48): `_fetchTables(null, [], callback)`. -/
def listTables (script : List ListResp) : List (Option String) × Except String (List String) :=
  fetchTables none [] script

/-- The script a successful enumeration consumes, its page name lists, and
the non-empty markers carried between pages. -/
inductive ListScriptOk : List ListResp → List (List String) → List String → Prop
  | last (names : List String) (lek : Option String) (h : strTruthy lek = false) :
      ListScriptOk [ListResp.ok names lek] [names] []
  | more (names : List String) (m : String) (rest : List ListResp)
      (ps : List (List String)) (ms : List String) (h : ¬(m = ""))
      (hs : ListScriptOk rest ps ms) :
      ListScriptOk (ListResp.ok names (some m) :: rest) (names :: ps) (m :: ms)

/-- A script that fails with `e` after zero or more complete pages. -/
inductive ListScriptFail : List ListResp → String → Prop
  | here (e : String) (rest : List ListResp) : ListScriptFail (ListResp.fail e :: rest) e
  | step (names : List String) (m : String) (rest : List ListResp) (e : String)
      (h : ¬(m = "")) (hs : ListScriptFail rest e) :
      ListScriptFail (ListResp.ok names (some m) :: rest) e

/-! ## Table-set computation in `backupAllTables` (part_000 lines 130-132) -/

/-- `_.difference(a, b)`: the values of `a` not contained in `b`, in order. -/
def jsDifference (a b : List String) : List String :=
  a.filter (fun x => !(b.contains x))

def lodashUniqAux : List String → List String → List String
  | [], _ => []
  | x :: xs, seen =>
      if seen.contains x then lodashUniqAux xs seen
      else x :: lodashUniqAux xs (x :: seen)

/-- lodash intersection keeps the unique values of the first array. -/
def lodashUniq (l : List String) : List String := lodashUniqAux l []

/-- `_.intersection(a, b)`: unique values of `a` also contained in `b`. -/
def jsIntersection (a b : List String) : List String :=
  (lodashUniq a).filter (fun x => b.contains x)

/-- Lines 130-132: `includedTables = self.includedTables || tables;
tables = _.difference(tables, self.excludedTables);
tables = _.intersection(tables, includedTables)`.  A missing
`includedTables` option (`undefined`, falsy) defaults to all tables. -/
def tablesToBackup (tables excludedTables : List String)
    (includedTables : Option (List String)) : List String :=
  let included := includedTables.getD tables
  jsIntersection (jsDifference tables excludedTables) included

/-! ## Multi-table orchestration (part_000 lines 50-150)

One per-table run is summarized by the error the uploader's `send`
callback reports (which is what `backupTable` passes to its own callback,
line 87) and the error the scan pipeline reports (which only feeds an
`error` event, lines 110-118).  `backupTableEvents` lists the events one
run emits; event order across the upload and scan callbacks is
scheduler-dependent, so theorems only use membership.  `async.each` is
modelled by its documented contract: the iteratee runs for every element
(errors never cancel in-flight siblings), and the aggregate callback
receives the first error passed to `done`, or nothing once all complete;
`runs` lists the per-table runs in completion order. -/

inductive BackupEvent where
  | startBackup (table : String)
  | endBackup (table : String)
  | errorEvent (table : String) (err : String)
deriving DecidableEq, Repr

structure TableRun where
  name : String
  uploadErr : Option String
  scanErr : Option String

/-- Events `backupTable` emits for one run: `start-backup` (line 76), an
`error` for an upload failure (lines 78-83), `end-backup` (line 86), an
`error` for a scan failure (lines 112-117). -/
def backupTableEvents (r : TableRun) : List BackupEvent :=
  [BackupEvent.startBackup r.name]
    ++ (match r.uploadErr with
        | some e => [BackupEvent.errorEvent r.name e]
        | none => [])
    ++ [BackupEvent.endBackup r.name]
    ++ (match r.scanErr with
        | some e => [BackupEvent.errorEvent r.name e]
        | none => [])

/-- The error `backupTable` passes to its completion callback (line 87). -/
def backupTableCallbackErr (r : TableRun) : Option String := r.uploadErr

/-- The per-table completion handler in `backupAllTables` (lines 136-144):
forward the error to `done` only when `stopOnFailure` is set. -/
def perTableDone (stopOnFailure : Bool) (err : Option String) : Option String :=
  match err with
  | some e => if stopOnFailure then some e else none
  | none => none

/-- Modelled from the `async.each` contract: the aggregate callback gets
the first error any task passed to `done`, in completion order. -/
def asyncEachResult (dones : List (Option String)) : Option String :=
  dones.findSome? id

/-- `backupAllTables` after the table list has been fetched: the aggregate
outcome and every emitted event. -/
def backupAllTablesRun (stopOnFailure : Bool) (runs : List TableRun) :
    Option String × List BackupEvent :=
  (asyncEachResult (runs.map (fun r => perTableDone stopOnFailure (backupTableCallbackErr r))),
   runs.flatMap backupTableEvents)

/-! ## The per-request limit (`_copyTable`, part_000 lines 169-170)

`Math.max((data.Table.ProvisionedThroughput.ReadCapacityUnits *
readPercentage) | 0, 1)` — JavaScript numbers are modelled as rationals;
`| 0` is ToInt32: truncation toward zero, then wrap-around modulo 2^32
into [-2^31, 2^31). -/

/-- Truncation toward zero of a rational. -/
def ratTrunc (x : ℚ) : ℤ := if 0 ≤ x then ⌊x⌋ else -⌊-x⌋

/-- JavaScript `x | 0`. -/
def jsToInt32 (x : ℚ) : ℤ := (ratTrunc x + 2 ^ 31) % 2 ^ 32 - 2 ^ 31

/-- The derived per-request limit. -/
def sampleLimit (readCapacityUnits readPercentage : ℚ) : ℤ :=
  max (jsToInt32 (readCapacityUnits * readPercentage)) 1

/-! # Theorems -/

/-- C1: `append("a")` while the stream is not asking for data (`read(0)`
does not reach `_read` because the internal buffer sits at or above the
high-water mark), followed by `append("b")`, overwrites the still
undelivered chunk: after draining, the consumer receives only `"b"` —
the pending chunk `"a"` is silently dropped, contradicting the required
backpressure guarantee. -/
theorem readableStream_append_overwrites_pending :
    ((RStream.append true "b" (RStream.append false "a" RStream.init)).readUnderscore).pushed
        = ["b"] ∧
    "a" ∉ ((RStream.append true "b" (RStream.append false "a" RStream.init)).readUnderscore).pushed := by
  decide

/-- C4: the derived per-request limit equals
`max(floor(readCapacityUnits * fraction), 1)` for any capacity below 2^31
and fraction in (0, 1] (the computation uses JavaScript `| 0`, which is
truncation plus 32-bit wrap; on this domain it coincides with `floor`);
the limit is always ≥ 1, and `sampleLimit 3 0.25 = 1`,
`sampleLimit 1000 0.25 = 250`. -/
theorem sampleLimit_matches_floor :
    ∀ (rcu : ℕ) (f : ℚ), 0 < f → f ≤ 1 → (rcu : ℚ) < 2 ^ 31 →
      (sampleLimit (rcu : ℚ) f = max ⌊(rcu : ℚ) * f⌋ 1 ∧ 1 ≤ sampleLimit (rcu : ℚ) f) ∧
      sampleLimit 3 (1 / 4) = 1 ∧ sampleLimit 1000 (1 / 4) = 250 := by
  intro rcu f hf0 hf1 hlt
  have hx0 : 0 ≤ (rcu : ℚ) * f := by positivity
  have hxlt : (rcu : ℚ) * f < 2 ^ 31 := by
    calc (rcu : ℚ) * f ≤ (rcu : ℚ) * 1 := by
          exact mul_le_mul_of_nonneg_left hf1 (by positivity)
      _ = (rcu : ℚ) := mul_one _
      _ < 2 ^ 31 := hlt
  have hfl0 : (0 : ℤ) ≤ ⌊(rcu : ℚ) * f⌋ := Int.le_floor.mpr (by exact_mod_cast hx0)
  have hfllt : ⌊(rcu : ℚ) * f⌋ < 2 ^ 31 := Int.floor_lt.mpr (by exact_mod_cast hxlt)
  have hj : jsToInt32 ((rcu : ℚ) * f) = ⌊(rcu : ℚ) * f⌋ := by
    unfold jsToInt32 ratTrunc
    rw [if_pos hx0]
    have hmod : (⌊(rcu : ℚ) * f⌋ + 2 ^ 31) % 2 ^ 32 = ⌊(rcu : ℚ) * f⌋ + 2 ^ 31 :=
      Int.emod_eq_of_lt (by omega) (by omega)
    omega
  refine ⟨⟨?_, ?_⟩, ?_, ?_⟩
  · unfold sampleLimit
    rw [hj]
  · exact le_max_right _ 1
  · have h34 : ⌊(3 * (1 / 4) : ℚ)⌋ = 0 := by
      norm_num [Int.floor_eq_iff]
    norm_num [sampleLimit, jsToInt32, ratTrunc, h34]
  · have h250 : ⌊(1000 * (1 / 4) : ℚ)⌋ = 250 := by
      norm_num
    norm_num [sampleLimit, jsToInt32, ratTrunc, h250]

/-- Witness for C4 at capacity 1000, fraction 1/4. -/
theorem sampleLimit_matches_floor_witness :
    0 < (1 / 4 : ℚ) ∧ (1 / 4 : ℚ) ≤ 1 ∧ (((1000 : ℕ)) : ℚ) < 2 ^ 31 ∧
    sampleLimit (((1000 : ℕ)) : ℚ) (1 / 4) = max ⌊(((1000 : ℕ)) : ℚ) * (1 / 4)⌋ 1 ∧
    1 ≤ sampleLimit (((1000 : ℕ)) : ℚ) (1 / 4) :=
  ⟨by norm_num, by norm_num, by norm_num,
    (sampleLimit_matches_floor 1000 (1 / 4) (by norm_num) (by norm_num) (by norm_num)).1.1,
    (sampleLimit_matches_floor 1000 (1 / 4) (by norm_num) (by norm_num) (by norm_num)).1.2⟩

/-- C9: a scan response whose `LastEvaluatedKey` is an object with zero
keys terminates the pagination with a successful completion callback, no
further scan request is issued, and the behaviour is identical to a
response with no `LastEvaluatedKey` at all. -/
theorem streamItems_empty_lek_terminates :
    ∀ (ι : Type) (items : List ι) (rest : List (ScanResp ι)),
      streamItems (ScanResp.ok items (some []) :: rest)
          = Except.ok (if items.length > 0 then [items] else []) ∧
      streamItems (ScanResp.ok items (some []) :: rest)
          = streamItems (ScanResp.ok items none :: rest) ∧
      scanRequests (ScanResp.ok items (some []) :: rest) = 1 ∧
      scanRequests (ScanResp.ok items none :: rest) = 1 := by
  intro ι items rest
  refine ⟨?_, ?_, ?_, ?_⟩ <;> simp [streamItems, scanRequests, lekAbsent]

lemma streamItems_scriptFor {ι : Type} {script : List (ScanResp ι)} {pages : List (List ι)}
    (h : ScriptFor script pages) :
    streamItems script = Except.ok (pages.filter (fun p => p.length > 0)) := by
  induction h with
  | last p lek hl =>
      by_cases hp : p.length > 0 <;> simp [streamItems, hl, hp]
  | more p lek rest ps hl hs ih =>
      by_cases hp : p.length > 0 <;> simp [streamItems, hl, hp, ih, Except.map]

lemma flatten_filter_pos {ι : Type} (pages : List (List ι)) :
    (pages.filter (fun p => p.length > 0)).flatten = pages.flatten := by
  induction pages with
  | nil => rfl
  | cons p ps ih =>
      by_cases hp : p.length > 0
      · simp [hp, ih]
      · have hnil : p = [] := List.eq_nil_of_length_eq_zero (by omega)
        simp [hp, hnil, ih]

lemma length_flatten_const {ι : Type} (pages : List (List ι)) (N : ℕ)
    (h : ∀ p ∈ pages, p.length = N) : pages.flatten.length = pages.length * N := by
  induction pages with
  | nil => simp
  | cons p ps ih =>
      have hp : p.length = N := h p (by simp)
      have hrest : ∀ q ∈ ps, q.length = N := fun q hq => h q (by simp [hq])
      simp [hp, ih hrest, Nat.succ_mul, Nat.add_comm]

lemma backupAppended_eq_flatten {ι : Type} (serialize : ι → String) (batches : List (List ι)) :
    backupAppended serialize batches
        = batches.flatten.flatMap (fun item => [serialize item, "\n"]) := by
  induction batches with
  | nil => rfl
  | cons b bs ih =>
      simp only [backupAppended] at ih ⊢
      simp [backupLines, ih]

/-- C2: for a table whose scan returns `K` pages of `N` items each with no
request error, the batches handed to the sink contain exactly `K*N`
records, in scan order: flattened they equal the flattened pages, and the
chunks appended to the sink are precisely one serialized line plus one
newline per scanned item, in page order — no loss, no duplication. -/
theorem streamItems_delivers_all_pages :
    ∀ (ι : Type) (serialize : ι → String) (script : List (ScanResp ι))
      (pages : List (List ι)) (K N : ℕ),
      ScriptFor script pages → pages.length = K → (∀ p ∈ pages, p.length = N) →
      ∃ batches, streamItems script = Except.ok batches ∧
        batches.flatten = pages.flatten ∧
        batches.flatten.length = K * N ∧
        backupAppended serialize batches
            = pages.flatten.flatMap (fun item => [serialize item, "\n"]) := by
  intro ι serialize script pages K N hscript hK hN
  refine ⟨pages.filter (fun p => p.length > 0), streamItems_scriptFor hscript, ?_, ?_, ?_⟩
  · exact flatten_filter_pos pages
  · rw [flatten_filter_pos pages, length_flatten_const pages N hN, hK]
  · rw [backupAppended_eq_flatten, flatten_filter_pos pages]

/-- Witness for C2: two pages of two items each. -/
theorem streamItems_delivers_all_pages_witness :
    ScriptFor [ScanResp.ok [1, 2] (some ["k"]), ScanResp.ok [3, 4] none]
        ([[1, 2], [3, 4]] : List (List ℕ)) ∧
    ([[1, 2], [3, 4]] : List (List ℕ)).length = 2 ∧
    (∀ p ∈ ([[1, 2], [3, 4]] : List (List ℕ)), p.length = 2) ∧
    ∃ batches,
      streamItems [ScanResp.ok [1, 2] (some ["k"]), ScanResp.ok [3, 4] none]
          = Except.ok batches ∧
      batches.flatten = ([[1, 2], [3, 4]] : List (List ℕ)).flatten ∧
      batches.flatten.length = 2 * 2 ∧
      backupAppended toString batches
          = ([[1, 2], [3, 4]] : List (List ℕ)).flatten.flatMap
              (fun item => [toString item, "\n"]) := by
  have hscript : ScriptFor [ScanResp.ok [1, 2] (some ["k"]), ScanResp.ok [3, 4] none]
      ([[1, 2], [3, 4]] : List (List ℕ)) :=
    ScriptFor.more [1, 2] (some ["k"]) _ _ rfl (ScriptFor.last [3, 4] none rfl)
  exact ⟨hscript, rfl, by decide,
    streamItems_delivers_all_pages ℕ toString _ _ 2 2 hscript rfl (by decide)⟩

lemma fetchTables_ok {script : List ListResp} {ps : List (List String)} {ms : List String}
    (h : ListScriptOk script ps ms) :
    ∀ (lastTable : Option String) (acc : List String),
      fetchTables lastTable acc script = (lastTable :: ms.map some, Except.ok (acc ++ ps.flatten)) := by
  induction h with
  | last names lek hl =>
      intro lastTable acc
      simp [fetchTables, hl]
  | more names m rest ps ms hm hs ih =>
      intro lastTable acc
      have hm2 : strTruthy (some m) = true := by simp [strTruthy, hm]
      simp [fetchTables, hm2, ih (some m) (acc ++ names)]

lemma fetchTables_err {script : List ListResp} {e : String} (h : ListScriptFail script e) :
    ∀ (lastTable : Option String) (acc : List String),
      (fetchTables lastTable acc script).2 = Except.error e := by
  induction h with
  | here e rest =>
      intro lastTable acc
      simp [fetchTables]
  | step names m rest e hm hs ih =>
      intro lastTable acc
      have hm2 : strTruthy (some m) = true := by simp [strTruthy, hm]
      simp [fetchTables, hm2, ih (some m) (acc ++ names)]

/-- C5: `listTables` yields the in-order, non-deduplicated concatenation
of all pages' names, issuing the first request with no marker and each
further request with the marker the previous response returned, until a
response carries no (truthy) marker; if any page request fails, the
enumeration surfaces that error and the accumulated names are discarded
(the error outcome carries no names). -/
theorem listTables_enumeration :
    (∀ (script : List ListResp) (ps : List (List String)) (ms : List String),
        ListScriptOk script ps ms →
        listTables script = (none :: ms.map some, Except.ok ps.flatten)) ∧
    (∀ (script : List ListResp) (e : String),
        ListScriptFail script e → (listTables script).2 = Except.error e) := by
  constructor
  · intro script ps ms h
    simpa using fetchTables_ok h none []
  · intro script e h
    exact fetchTables_err h none []

/-- Witness for C5: pages `["A","B"]` (marker `"B"`) then `["C"]` (no
marker) yield exactly `["A","B","C"]`; a first-page failure surfaces the
error. -/
theorem listTables_enumeration_witness :
    ListScriptOk [ListResp.ok ["A", "B"] (some "B"), ListResp.ok ["C"] none]
        [["A", "B"], ["C"]] ["B"] ∧
    listTables [ListResp.ok ["A", "B"] (some "B"), ListResp.ok ["C"] none]
        = ([none, some "B"], Except.ok ["A", "B", "C"]) ∧
    ListScriptFail [ListResp.fail "boom"] "boom" ∧
    (listTables [ListResp.fail "boom"]).2 = Except.error "boom" := by
  have hok : ListScriptOk [ListResp.ok ["A", "B"] (some "B"), ListResp.ok ["C"] none]
      [["A", "B"], ["C"]] ["B"] :=
    ListScriptOk.more ["A", "B"] "B" _ _ _ (by decide) (ListScriptOk.last ["C"] none rfl)
  have hfail : ListScriptFail [ListResp.fail "boom"] "boom" := ListScriptFail.here "boom" []
  refine ⟨hok, ?_, hfail, listTables_enumeration.2 _ _ hfail⟩
  have h := listTables_enumeration.1 _ _ _ hok
  simpa using h

lemma lodashUniqAux_mem (l : List String) :
    ∀ (seen : List String) (x : String),
      x ∈ lodashUniqAux l seen ↔ x ∈ l ∧ x ∉ seen := by
  induction l with
  | nil =>
      intro seen x
      simp [lodashUniqAux]
  | cons y ys ih =>
      intro seen x
      by_cases hy : y ∈ seen
      · rw [show lodashUniqAux (y :: ys) seen = lodashUniqAux ys seen by
          simp [lodashUniqAux, hy]]
        rw [ih]
        simp only [List.mem_cons]
        constructor
        · rintro ⟨h1, h2⟩
          exact ⟨Or.inr h1, h2⟩
        · rintro ⟨rfl | h1, h2⟩
          · exact absurd hy h2
          · exact ⟨h1, h2⟩
      · rw [show lodashUniqAux (y :: ys) seen = y :: lodashUniqAux ys (y :: seen) by
          simp [lodashUniqAux, hy]]
        simp only [List.mem_cons, ih]
        constructor
        · rintro (rfl | ⟨h1, h2⟩)
          · exact ⟨Or.inl rfl, hy⟩
          · push_neg at h2
            exact ⟨Or.inr h1, h2.2⟩
        · rintro ⟨rfl | h1, h2⟩
          · exact Or.inl rfl
          · by_cases hxy : x = y
            · exact Or.inl hxy
            · refine Or.inr ⟨h1, ?_⟩
              push_neg
              exact ⟨hxy, h2⟩

lemma lodashUniq_mem (l : List String) (x : String) : x ∈ lodashUniq l ↔ x ∈ l := by
  simp [lodashUniq, lodashUniqAux_mem]

/-- C6: `backupAllTables` backs up exactly the set
`intersection(allTables − excluded, included-or-allTables)`: a table is in
the computed list iff it is a listed table, not excluded, and included (or
no include list was given); in particular a table appearing in both the
include and the exclude list is not backed up. -/
theorem tablesToBackup_set_algebra :
    ∀ (tables excluded : List String) (includedTables : Option (List String)) (t : String),
      (t ∈ tablesToBackup tables excluded includedTables ↔
        t ∈ tables ∧ t ∉ excluded ∧ t ∈ includedTables.getD tables) ∧
      (t ∈ excluded → t ∉ tablesToBackup tables excluded includedTables) := by
  intro tables excluded includedTables t
  have hmem : t ∈ tablesToBackup tables excluded includedTables ↔
      t ∈ tables ∧ t ∉ excluded ∧ t ∈ includedTables.getD tables := by
    simp only [tablesToBackup, jsIntersection, jsDifference, List.mem_filter,
      lodashUniq_mem]
    constructor
    · rintro ⟨⟨h1, h2⟩, h3⟩
      simp at h2 h3
      exact ⟨h1, h2, h3⟩
    · rintro ⟨h1, h2, h3⟩
      refine ⟨⟨h1, ?_⟩, ?_⟩ <;> simp [h2, h3]
  refine ⟨hmem, ?_⟩
  intro hexc habs
  exact ((hmem.mp habs).2.1) hexc

/-- Witness for C6: table `"B"` is both included and excluded, so it is not
backed up. -/
theorem tablesToBackup_set_algebra_witness :
    ("B" ∈ (["B"] : List String)) ∧
    ("B" ∉ tablesToBackup ["A", "B"] ["B"] (some ["B", "C"])) :=
  ⟨by decide,
    (tablesToBackup_set_algebra ["A", "B"] ["B"] (some ["B", "C"]) "B").2 (by decide)⟩

/-- C7: the claim requires the aggregate callback, with `stopOnFailure`
set, to reflect the first per-table failure — scan failures included.
Evaluating the code at a table whose scan request fails while its upload
completes: the scan error only feeds an `error` event, `backupTable`'s
callback receives the uploader's (absent) error, so the aggregate
callback reports overall success; an upload failure, by contrast, is
aggregated.  The stop-on-failure aggregate never sees scan failures. -/
theorem backupAllTables_scan_failure_not_aggregated :
    (backupAllTablesRun true [⟨"t1", none, some "scan-err"⟩]).1 = none ∧
    BackupEvent.errorEvent "t1" "scan-err"
      ∈ (backupAllTablesRun true [⟨"t1", none, some "scan-err"⟩]).2 ∧
    (backupAllTablesRun true [⟨"t1", some "upload-err", none⟩]).1 = some "upload-err" := by
  decide

lemma base64Value_wf (enc : String → String) (henc : enc "" = "") :
    ∀ v : JVal, wfValue v = true → base64EncodeValue enc v = specBase64Value enc v := by
  intro v hv
  cases v with
  | obj entries =>
      cases entries with
      | nil => simp [wfValue] at hv
      | cons k payload rest =>
          cases rest with
          | cons k2 v2 r2 => simp [wfValue] at hv
          | nil =>
              by_cases hk : k = "B"
              · subst hk
                have hstr : payload.isStr = true := by
                  simpa [wfValue, knownTag] using hv
                cases payload with
                | str s =>
                    by_cases hs : s = ""
                    · subst hs
                      simp [base64EncodeValue, specBase64Value, jsTruthy, jsGetB,
                        JObj.get, henc]
                    · simp [base64EncodeValue, specBase64Value, jsTruthy, jsGetB,
                        JObj.get, JObj.set, bufferBase64, hs]
                | _ => simp [JVal.isStr] at hstr
              · have hget : jsGetB (JVal.obj (.cons k payload .nil)) = JVal.undefined := by
                  simp [jsGetB, JObj.get, hk]
                have hcode : base64EncodeValue enc (JVal.obj (.cons k payload .nil))
                    = JVal.obj (.cons k payload .nil) := by
                  simp [base64EncodeValue, hget, jsTruthy]
                rw [hcode]
                cases payload with
                | str s => simp [specBase64Value, hk]
                | bool b => rfl
                | null => rfl
                | undefined => rfl
                | arr elems => rfl
                | obj o => rfl
  | str s => simp [wfValue] at hv
  | bool b => simp [wfValue] at hv
  | null => simp [wfValue] at hv
  | undefined => simp [wfValue] at hv
  | arr elems => simp [wfValue] at hv

theorem base64Entries_wf (enc : String → String) (henc : enc "" = "") :
    ∀ entries : JObj, wfEntries entries = true →
      base64EncodeEntries enc entries = specBase64Entries enc entries
  | .nil, _ => rfl
  | .cons n v rest, h => by
      have hv : wfValue v = true := by
        have := h
        simp [wfEntries] at this
        exact this.1
      have hrest : wfEntries rest = true := by
        have := h
        simp [wfEntries] at this
        exact this.2
      simp [base64EncodeEntries, specBase64Entries, base64Value_wf enc henc v hv,
        base64Entries_wf enc henc rest hrest]

/-- C10: with base64 encoding enabled, the loop in `backupTable` rewrites
exactly the top-level attribute values bearing tag `B` (re-encoding their
string payload), and leaves `BS` values, values nested inside `M`/`L`
payloads, and all non-binary attributes unchanged: on well-formed records
it equals the spec-side transform that touches only top-level `B`
payloads.  (`enc "" = ""` reflects that base64 of the empty byte string
is empty — the code skips an empty payload because `value.B` is falsy.) -/
theorem base64EncodeItem_only_top_level_B :
    ∀ (enc : String → String) (item : JVal), enc "" = "" → wfItem item = true →
      base64EncodeItem enc item = specBase64Item enc item := by
  intro enc item henc hitem
  cases item with
  | obj entries =>
      have he : wfEntries entries = true := by simpa [wfItem] using hitem
      simp [base64EncodeItem, specBase64Item, base64Entries_wf enc henc entries he]
  | str s => rfl
  | bool b => rfl
  | null => rfl
  | undefined => rfl
  | arr elems => rfl

/-- Witness for C10: a record with a `B` attribute and a `BS` attribute;
the doubling encoder satisfies `enc "" = ""`. -/
theorem base64EncodeItem_only_top_level_B_witness :
    ((fun s => s ++ s) "" = "") ∧
    wfItem (JVal.obj (.cons "id" (.obj (.cons "B" (.str "ab") .nil))
      (.cons "tags" (.obj (.cons "BS" (.arr (.cons (.str "x") .nil)) .nil)) .nil))) = true ∧
    base64EncodeItem (fun s => s ++ s)
        (JVal.obj (.cons "id" (.obj (.cons "B" (.str "ab") .nil))
          (.cons "tags" (.obj (.cons "BS" (.arr (.cons (.str "x") .nil)) .nil)) .nil)))
      = specBase64Item (fun s => s ++ s)
        (JVal.obj (.cons "id" (.obj (.cons "B" (.str "ab") .nil))
          (.cons "tags" (.obj (.cons "BS" (.arr (.cons (.str "x") .nil)) .nil)) .nil))) :=
  ⟨rfl, by decide,
    base64EncodeItem_only_top_level_B (fun s => s ++ s) _ rfl (by decide)⟩

/-! ## The DataPipeline rename: auxiliary lemmas -/

lemma getKey_known (k : String) (hk : knownTag k = true) :
    getDataPipelineAttributeValueKey k = Except.ok (specTagKey k) ∧ specTagKey k ≠ k := by
  simp [knownTag] at hk
  rcases hk with rfl | rfl | rfl | rfl | rfl | rfl | rfl | rfl | rfl | rfl <;>
    exact ⟨rfl, by decide⟩

mutual
theorem stripUndef_of_noUndef : ∀ v : JVal, noUndef v = true → stripUndef v = v
  | .str _, _ => rfl
  | .bool _, _ => rfl
  | .null, _ => rfl
  | .undefined, h => by simp [noUndef] at h
  | .arr elems, h => by
      have hl := stripUndefList_of_noUndef elems (by simpa [noUndef] using h)
      simp [stripUndef, hl]
  | .obj entries, h => by
      have ho := stripUndefObj_of_noUndef entries (by simpa [noUndef] using h)
      simp [stripUndef, ho]

theorem stripUndefList_of_noUndef : ∀ l : JList, noUndefList l = true → stripUndefList l = l
  | .nil, _ => rfl
  | .cons v rest, h => by
      have h2 := h
      simp only [noUndefList, Bool.and_eq_true] at h2
      have hv := stripUndef_of_noUndef v h2.1
      have hr := stripUndefList_of_noUndef rest h2.2
      simp [stripUndefList, hv, hr]

theorem stripUndefObj_of_noUndef : ∀ o : JObj, noUndefObj o = true → stripUndefObj o = o
  | .nil, _ => rfl
  | .cons k v rest, h => by
      have h2 := h
      simp only [noUndefObj, Bool.and_eq_true] at h2
      have hv := stripUndef_of_noUndef v h2.1
      have hr := stripUndefObj_of_noUndef rest h2.2
      have hne : v ≠ JVal.undefined := by
        intro habs
        rw [habs] at h2
        simp [noUndef] at h2
      simp [stripUndefObj, hne, hv, hr]
end

lemma specRenameValue_ne_undef (v : JVal) (hv : wfValue v = true) :
    specRenameValue v ≠ JVal.undefined := by
  cases v with
  | obj entries =>
      cases entries with
      | nil => simp [wfValue] at hv
      | cons k payload rest =>
          cases rest with
          | nil => simp [specRenameValue]
          | cons a b c => simp [wfValue] at hv
  | str s => simp [wfValue] at hv
  | bool b => simp [wfValue] at hv
  | null => simp [wfValue] at hv
  | undefined => simp [wfValue] at hv
  | arr elems => simp [wfValue] at hv


lemma specRenameItem_ne_undef (v : JVal) (hv : wfItem v = true) :
    specRenameItem v ≠ JVal.undefined := by
  cases v with
  | obj entries => simp [specRenameItem]
  | arr elems => simp [specRenameItem]
  | str s => simp [wfItem] at hv
  | bool b => simp [wfItem] at hv
  | null => simp [wfItem] at hv
  | undefined => simp [wfItem] at hv

mutual
theorem fmtItem_wf : ∀ v : JVal, wfItem v = true →
    ∃ o, formatForDataPipeline v = Except.ok o ∧ stripUndef o = specRenameItem v
  | .obj entries, h => by
      obtain ⟨os, h1, h2⟩ := fmtEntries_wf entries (by simpa [wfItem] using h)
      refine ⟨JVal.obj os, ?_, ?_⟩
      · simp [formatForDataPipeline, h1, Except.map]
      · simp [stripUndef, specRenameItem, h2]
  | .arr elems, h => by
      obtain ⟨os, h1, h2⟩ := fmtElems_wf elems (by simpa [wfItem] using h)
      refine ⟨JVal.arr os, ?_, ?_⟩
      · simp [formatForDataPipeline, h1, Except.map]
      · simp [stripUndef, specRenameItem, h2]
  | .str s, h => by simp [wfItem] at h
  | .bool b, h => by simp [wfItem] at h
  | .null, h => by simp [wfItem] at h
  | .undefined, h => by simp [wfItem] at h

theorem fmtEntries_wf : ∀ es : JObj, wfEntries es = true →
    ∃ os, formatEntries es = Except.ok os ∧ stripUndefObj os = specRenameEntries es
  | .nil, _ => ⟨JObj.nil, rfl, rfl⟩
  | .cons n v rest, h => by
      have h2 := h
      simp only [wfEntries, Bool.and_eq_true] at h2
      obtain ⟨o, ho1, ho2⟩ := fmtValue_wf v h2.1
      obtain ⟨os, hs1, hs2⟩ := fmtEntries_wf rest h2.2
      refine ⟨JObj.cons n o os, ?_, ?_⟩
      · simp [formatEntries, ho1, hs1, Bind.bind, Except.bind, Pure.pure, Except.pure]
      · have hne : o ≠ JVal.undefined := by
          intro habs
          rw [habs] at ho2
          simp only [stripUndef] at ho2
          exact specRenameValue_ne_undef v h2.1 ho2.symm
        simp [stripUndefObj, hne, ho2, hs2, specRenameEntries]

theorem fmtElems_wf : ∀ l : JList, wfElems l = true →
    ∃ os, formatElems l = Except.ok os ∧ stripUndefList os = specRenameElems l
  | .nil, _ => ⟨JList.nil, rfl, rfl⟩
  | .cons v rest, h => by
      have h2 := h
      simp only [wfElems, Bool.and_eq_true] at h2
      obtain ⟨o, ho1, ho2⟩ := fmtValue_wf v h2.1
      obtain ⟨os, hs1, hs2⟩ := fmtElems_wf rest h2.2
      refine ⟨JList.cons o os, ?_, ?_⟩
      · simp [formatElems, ho1, hs1, Bind.bind, Except.bind, Pure.pure, Except.pure]
      · simp [stripUndefList, ho2, hs2, specRenameElems]

theorem fmtValue_wf : ∀ v : JVal, wfValue v = true →
    ∃ o, formatValue v = Except.ok o ∧ stripUndef o = specRenameValue v
  | .obj (.cons k payload .nil), h => by
      have h2 := h
      simp only [wfValue, Bool.and_eq_true] at h2
      obtain ⟨hk, hx⟩ := h2
      obtain ⟨hgk, hne⟩ := getKey_known k hk
      by_cases hml : k = "M" ∨ k = "L"
      · rw [if_pos hml] at hx
        obtain ⟨p2, hp1, hp2⟩ := fmtItem_wf payload hx
        refine ⟨JVal.obj (applyRenames (JObj.cons k payload JObj.nil)
          [(k, specTagKey k, p2)]), ?_, ?_⟩
        · simp [formatValue, renameTagEntries, hgk, hml, hp1, Bind.bind, Except.bind,
            Pure.pure, Except.pure]
        · have happly : applyRenames (JObj.cons k payload JObj.nil) [(k, specTagKey k, p2)]
              = JObj.cons k JVal.undefined (JObj.cons (specTagKey k) p2 JObj.nil) := by
            simp [applyRenames, applyRename, JObj.set, beq_iff_eq, Ne.symm hne]
          have hp2ne : p2 ≠ JVal.undefined := by
            intro habs
            rw [habs] at hp2
            simp only [stripUndef] at hp2
            exact specRenameItem_ne_undef payload hx hp2.symm
          rw [happly]
          simp [stripUndef, stripUndefObj, specRenameValue, hml, hp2, hp2ne]
      · rw [if_neg hml] at hx
        have hstrip : stripUndef payload = payload := by
          by_cases hb : k = "B"
          · rw [if_pos hb] at hx
            cases payload with
            | str s => rfl
            | bool b => simp [JVal.isStr] at hx
            | null => simp [JVal.isStr] at hx
            | undefined => simp [JVal.isStr] at hx
            | arr es2 => simp [JVal.isStr] at hx
            | obj o2 => simp [JVal.isStr] at hx
          · rw [if_neg hb] at hx
            exact stripUndef_of_noUndef payload hx
        refine ⟨JVal.obj (applyRenames (JObj.cons k payload JObj.nil)
          [(k, specTagKey k, payload)]), ?_, ?_⟩
        · simp [formatValue, renameTagEntries, hgk, hml, Bind.bind, Except.bind,
            Pure.pure, Except.pure]
        · have happly : applyRenames (JObj.cons k payload JObj.nil)
              [(k, specTagKey k, payload)]
              = JObj.cons k JVal.undefined (JObj.cons (specTagKey k) payload JObj.nil) := by
            simp [applyRenames, applyRename, JObj.set, beq_iff_eq, Ne.symm hne]
          have hpne : payload ≠ JVal.undefined := by
            intro habs
            rw [habs] at hx
            by_cases hb : k = "B"
            · rw [if_pos hb] at hx
              simp [JVal.isStr] at hx
            · rw [if_neg hb] at hx
              simp [noUndef] at hx
          rw [happly]
          simp [stripUndef, stripUndefObj, specRenameValue, hml, hstrip, hpne]
  | .obj .nil, h => by simp [wfValue] at h
  | .obj (.cons k payload (.cons a b c)), h => by simp [wfValue] at h
  | .str s, h => by simp [wfValue] at h
  | .bool b, h => by simp [wfValue] at h
  | .null, h => by simp [wfValue] at h
  | .undefined, h => by simp [wfValue] at h
  | .arr es, h => by simp [wfValue] at h
end

theorem specRenameEntries_keys : ∀ es : JObj, (specRenameEntries es).keys = es.keys
  | .nil => rfl
  | .cons n v rest => by
      simp [specRenameEntries, JObj.keys, specRenameEntries_keys rest]

/-- C3: on every record whose typed-value tags all lie in the known set
(well-formed wire-format record), the transform succeeds and — after
serialization drops the `undefined` members left by the in-place rename —
equals the spec-side rename: every tag key is replaced by the fixed
table's output key with the payload unchanged, recursing into `M`/`L`
payloads, and sibling attributes are neither lost nor reordered (the
output record's keys are exactly the input record's keys, in order). -/
theorem formatForDataPipeline_renames_tags :
    ∀ item : JVal, wfItem item = true →
      ∃ out, formatForDataPipeline item = Except.ok out ∧
        stripUndef out = specRenameItem item ∧
        ∀ entries : JObj, item = JVal.obj entries →
          stripUndef out = JVal.obj (specRenameEntries entries) ∧
          (specRenameEntries entries).keys = entries.keys := by
  intro item hwf
  obtain ⟨out, h1, h2⟩ := fmtItem_wf item hwf
  refine ⟨out, h1, h2, ?_⟩
  rintro entries rfl
  exact ⟨by simp [h2, specRenameItem], specRenameEntries_keys entries⟩

/-- Witness for C3: the record
`{"id":{"S":"x"},"tags":{"SS":["a","b"]},"meta":{"M":{"flag":{"BOOL":true}}}}`. -/
theorem formatForDataPipeline_renames_tags_witness :
    wfItem (JVal.obj (.cons "id" (.obj (.cons "S" (.str "x") .nil))
      (.cons "tags" (.obj (.cons "SS"
          (.arr (.cons (.str "a") (.cons (.str "b") .nil))) .nil))
      (.cons "meta" (.obj (.cons "M"
          (.obj (.cons "flag" (.obj (.cons "BOOL" (.bool true) .nil)) .nil)) .nil))
        .nil)))) = true ∧
    specRenameItem (JVal.obj (.cons "id" (.obj (.cons "S" (.str "x") .nil))
      (.cons "tags" (.obj (.cons "SS"
          (.arr (.cons (.str "a") (.cons (.str "b") .nil))) .nil))
      (.cons "meta" (.obj (.cons "M"
          (.obj (.cons "flag" (.obj (.cons "BOOL" (.bool true) .nil)) .nil)) .nil))
        .nil))))
      = JVal.obj (.cons "id" (.obj (.cons "s" (.str "x") .nil))
        (.cons "tags" (.obj (.cons "sS"
            (.arr (.cons (.str "a") (.cons (.str "b") .nil))) .nil))
        (.cons "meta" (.obj (.cons "m"
            (.obj (.cons "flag" (.obj (.cons "bOOL" (.bool true) .nil)) .nil)) .nil))
          .nil))) ∧
    (∃ out, formatForDataPipeline (JVal.obj (.cons "id" (.obj (.cons "S" (.str "x") .nil))
      (.cons "tags" (.obj (.cons "SS"
          (.arr (.cons (.str "a") (.cons (.str "b") .nil))) .nil))
      (.cons "meta" (.obj (.cons "M"
          (.obj (.cons "flag" (.obj (.cons "BOOL" (.bool true) .nil)) .nil)) .nil))
        .nil)))) = Except.ok out ∧
      stripUndef out = specRenameItem (JVal.obj (.cons "id" (.obj (.cons "S" (.str "x") .nil))
        (.cons "tags" (.obj (.cons "SS"
            (.arr (.cons (.str "a") (.cons (.str "b") .nil))) .nil))
        (.cons "meta" (.obj (.cons "M"
            (.obj (.cons "flag" (.obj (.cons "BOOL" (.bool true) .nil)) .nil)) .nil))
          .nil)))) ∧
      ∀ entries : JObj,
        JVal.obj (.cons "id" (.obj (.cons "S" (.str "x") .nil))
          (.cons "tags" (.obj (.cons "SS"
              (.arr (.cons (.str "a") (.cons (.str "b") .nil))) .nil))
          (.cons "meta" (.obj (.cons "M"
              (.obj (.cons "flag" (.obj (.cons "BOOL" (.bool true) .nil)) .nil)) .nil))
            .nil))) = JVal.obj entries →
          stripUndef out = JVal.obj (specRenameEntries entries) ∧
          (specRenameEntries entries).keys = entries.keys) :=
  ⟨by decide, by decide, formatForDataPipeline_renames_tags _ (by decide)⟩

/-! ## Unknown tags: the transform succeeds exactly off the bad-tag records -/

lemma getKey_unknown (k : String) (hk : knownTag k = false) :
    getDataPipelineAttributeValueKey k
      = Except.error ("Unknown AttributeValue key: " ++ k) := by
  simp [knownTag] at hk
  obtain ⟨h1, h2, h3, h4, h5, h6, h7, h8, h9, h10⟩ := hk
  simp [getDataPipelineAttributeValueKey, h1, h2, h3, h4, h5, h6, h7, h8, h9, h10]

mutual
theorem fmtItem_ok_of_noBad : ∀ v : JVal, itemHasBadTag v = false →
    ∃ o, formatForDataPipeline v = Except.ok o
  | .obj entries, h => by
      obtain ⟨os, h1⟩ := fmtEntries_ok_of_noBad entries (by simpa [itemHasBadTag] using h)
      exact ⟨JVal.obj os, by simp [formatForDataPipeline, h1, Except.map]⟩
  | .arr elems, h => by
      obtain ⟨os, h1⟩ := fmtElems_ok_of_noBad elems (by simpa [itemHasBadTag] using h)
      exact ⟨JVal.arr os, by simp [formatForDataPipeline, h1, Except.map]⟩
  | .str s, _ => ⟨.str s, rfl⟩
  | .bool b, _ => ⟨.bool b, rfl⟩
  | .null, _ => ⟨.null, rfl⟩
  | .undefined, _ => ⟨.undefined, rfl⟩

theorem fmtEntries_ok_of_noBad : ∀ es : JObj, entriesHaveBadTag es = false →
    ∃ os, formatEntries es = Except.ok os
  | .nil, _ => ⟨.nil, rfl⟩
  | .cons n v rest, h => by
      have h2 := h
      simp only [entriesHaveBadTag, Bool.or_eq_false_iff] at h2
      obtain ⟨o, ho⟩ := fmtValue_ok_of_noBad v h2.1
      obtain ⟨os, hos⟩ := fmtEntries_ok_of_noBad rest h2.2
      exact ⟨.cons n o os, by
        simp [formatEntries, ho, hos, Bind.bind, Except.bind, Pure.pure, Except.pure]⟩

theorem fmtElems_ok_of_noBad : ∀ l : JList, elemsHaveBadTag l = false →
    ∃ os, formatElems l = Except.ok os
  | .nil, _ => ⟨.nil, rfl⟩
  | .cons v rest, h => by
      have h2 := h
      simp only [elemsHaveBadTag, Bool.or_eq_false_iff] at h2
      obtain ⟨o, ho⟩ := fmtValue_ok_of_noBad v h2.1
      obtain ⟨os, hos⟩ := fmtElems_ok_of_noBad rest h2.2
      exact ⟨.cons o os, by
        simp [formatElems, ho, hos, Bind.bind, Except.bind, Pure.pure, Except.pure]⟩

theorem fmtValue_ok_of_noBad : ∀ v : JVal, valueHasBadTag v = false →
    ∃ o, formatValue v = Except.ok o
  | .obj entries, h => by
      obtain ⟨procs, hp⟩ := renameTag_ok_of_noBad entries (by simpa [valueHasBadTag] using h)
      exact ⟨.obj (applyRenames entries procs), by
        simp [formatValue, hp, Bind.bind, Except.bind, Pure.pure, Except.pure]⟩
  | .str s, _ => ⟨.str s, rfl⟩
  | .bool b, _ => ⟨.bool b, rfl⟩
  | .null, _ => ⟨.null, rfl⟩
  | .undefined, _ => ⟨.undefined, rfl⟩
  | .arr es, _ => ⟨.arr es, rfl⟩

theorem renameTag_ok_of_noBad : ∀ es : JObj, tagEntriesHaveBadTag es = false →
    ∃ procs, renameTagEntries es = Except.ok procs
  | .nil, _ => ⟨[], rfl⟩
  | .cons k v rest, h => by
      have h2 := h
      simp only [tagEntriesHaveBadTag, Bool.or_eq_false_iff] at h2
      obtain ⟨⟨hknot, hmid⟩, hrest⟩ := h2
      have hk : knownTag k = true := by
        simpa using hknot
      have hgk := (getKey_known k hk).1
      obtain ⟨procs, hps⟩ := renameTag_ok_of_noBad rest hrest
      by_cases hml : k = "M" ∨ k = "L"
      · have hmlb : (k == "M" || k == "L") = true := by
          rcases hml with rfl | rfl <;> rfl
        rw [hmlb] at hmid
        simp only [Bool.true_and] at hmid
        obtain ⟨o, ho⟩ := fmtItem_ok_of_noBad v hmid
        exact ⟨(k, specTagKey k, o) :: procs, by
          simp [renameTagEntries, hgk, hml, ho, hps, Bind.bind, Except.bind,
            Pure.pure, Except.pure]⟩
      · exact ⟨(k, specTagKey k, v) :: procs, by
          simp [renameTagEntries, hgk, hml, hps, Bind.bind, Except.bind,
            Pure.pure, Except.pure]⟩
end

mutual
theorem fmtItem_err_of_bad : ∀ v : JVal, itemHasBadTag v = true →
    ∃ t, knownTag t = false ∧
      formatForDataPipeline v = Except.error ("Unknown AttributeValue key: " ++ t)
  | .obj entries, h => by
      obtain ⟨t, ht, he⟩ := fmtEntries_err_of_bad entries (by simpa [itemHasBadTag] using h)
      exact ⟨t, ht, by simp [formatForDataPipeline, he, Except.map]⟩
  | .arr elems, h => by
      obtain ⟨t, ht, he⟩ := fmtElems_err_of_bad elems (by simpa [itemHasBadTag] using h)
      exact ⟨t, ht, by simp [formatForDataPipeline, he, Except.map]⟩
  | .str s, h => by simp [itemHasBadTag] at h
  | .bool b, h => by simp [itemHasBadTag] at h
  | .null, h => by simp [itemHasBadTag] at h
  | .undefined, h => by simp [itemHasBadTag] at h

theorem fmtEntries_err_of_bad : ∀ es : JObj, entriesHaveBadTag es = true →
    ∃ t, knownTag t = false ∧
      formatEntries es = Except.error ("Unknown AttributeValue key: " ++ t)
  | .nil, h => by simp [entriesHaveBadTag] at h
  | .cons n v rest, h => by
      have h2 := h
      simp only [entriesHaveBadTag, Bool.or_eq_true] at h2
      by_cases hvb : valueHasBadTag v = true
      · obtain ⟨t, ht, he⟩ := fmtValue_err_of_bad v hvb
        exact ⟨t, ht, by simp [formatEntries, he, Bind.bind, Except.bind]⟩
      · have hvf : valueHasBadTag v = false := by
          cases hvc : valueHasBadTag v
          · rfl
          · exact absurd hvc hvb
        have hrest : entriesHaveBadTag rest = true := by
          rcases h2 with hv | hr
          · exact absurd hv hvb
          · exact hr
        obtain ⟨o, ho⟩ := fmtValue_ok_of_noBad v hvf
        obtain ⟨t, ht, he⟩ := fmtEntries_err_of_bad rest hrest
        exact ⟨t, ht, by
          simp [formatEntries, ho, he, Bind.bind, Except.bind, Pure.pure, Except.pure]⟩

theorem fmtElems_err_of_bad : ∀ l : JList, elemsHaveBadTag l = true →
    ∃ t, knownTag t = false ∧
      formatElems l = Except.error ("Unknown AttributeValue key: " ++ t)
  | .nil, h => by simp [elemsHaveBadTag] at h
  | .cons v rest, h => by
      have h2 := h
      simp only [elemsHaveBadTag, Bool.or_eq_true] at h2
      by_cases hvb : valueHasBadTag v = true
      · obtain ⟨t, ht, he⟩ := fmtValue_err_of_bad v hvb
        exact ⟨t, ht, by simp [formatElems, he, Bind.bind, Except.bind]⟩
      · have hvf : valueHasBadTag v = false := by
          cases hvc : valueHasBadTag v
          · rfl
          · exact absurd hvc hvb
        have hrest : elemsHaveBadTag rest = true := by
          rcases h2 with hv | hr
          · exact absurd hv hvb
          · exact hr
        obtain ⟨o, ho⟩ := fmtValue_ok_of_noBad v hvf
        obtain ⟨t, ht, he⟩ := fmtElems_err_of_bad rest hrest
        exact ⟨t, ht, by
          simp [formatElems, ho, he, Bind.bind, Except.bind, Pure.pure, Except.pure]⟩

theorem fmtValue_err_of_bad : ∀ v : JVal, valueHasBadTag v = true →
    ∃ t, knownTag t = false ∧
      formatValue v = Except.error ("Unknown AttributeValue key: " ++ t)
  | .obj entries, h => by
      obtain ⟨t, ht, he⟩ := renameTag_err_of_bad entries (by simpa [valueHasBadTag] using h)
      exact ⟨t, ht, by simp [formatValue, he, Bind.bind, Except.bind]⟩
  | .str s, h => by simp [valueHasBadTag] at h
  | .bool b, h => by simp [valueHasBadTag] at h
  | .null, h => by simp [valueHasBadTag] at h
  | .undefined, h => by simp [valueHasBadTag] at h
  | .arr es, h => by simp [valueHasBadTag] at h

theorem renameTag_err_of_bad : ∀ es : JObj, tagEntriesHaveBadTag es = true →
    ∃ t, knownTag t = false ∧
      renameTagEntries es = Except.error ("Unknown AttributeValue key: " ++ t)
  | .nil, h => by simp [tagEntriesHaveBadTag] at h
  | .cons k v rest, h => by
      have h2 := h
      simp only [tagEntriesHaveBadTag, Bool.or_eq_true, Bool.and_eq_true] at h2
      by_cases hk : knownTag k = true
      · have hgk := (getKey_known k hk).1
        by_cases hvb : (k = "M" ∨ k = "L") ∧ itemHasBadTag v = true
        · obtain ⟨t, ht, he⟩ := fmtItem_err_of_bad v hvb.2
          exact ⟨t, ht, by
            simp [renameTagEntries, hgk, hvb.1, he, Bind.bind, Except.bind]⟩
        · have hrest : tagEntriesHaveBadTag rest = true := by
            rcases h2 with (hknot | ⟨hmlb, hbadv⟩) | hr
            · rw [hk] at hknot
              simp at hknot
            · have hml : k = "M" ∨ k = "L" := by simpa using hmlb
              exact absurd ⟨hml, hbadv⟩ hvb
            · exact hr
          obtain ⟨t, ht, he⟩ := renameTag_err_of_bad rest hrest
          have hhead : ∃ o,
              (if k = "M" ∨ k = "L" then formatForDataPipeline v else pure v)
                = Except.ok o := by
            by_cases hml : k = "M" ∨ k = "L"
            · have hbad : itemHasBadTag v = false := by
                cases hbv : itemHasBadTag v
                · rfl
                · exact absurd ⟨hml, hbv⟩ hvb
              obtain ⟨o, ho⟩ := fmtItem_ok_of_noBad v hbad
              exact ⟨o, by simp [hml, ho]⟩
            · exact ⟨v, by simp [hml, Pure.pure, Except.pure]⟩
          obtain ⟨o, ho⟩ := hhead
          refine ⟨t, ht, ?_⟩
          simp only [renameTagEntries, hgk, Bind.bind, Except.bind]
          by_cases hml : k = "M" ∨ k = "L"
          · rw [if_pos hml] at ho ⊢
            simp [ho, he, Except.bind, Pure.pure, Except.pure]
          · rw [if_neg hml] at ho ⊢
            simp [he, Except.bind, Pure.pure, Except.pure]
      · have hkf : knownTag k = false := by
          cases hkc : knownTag k
          · rfl
          · exact absurd hkc hk
        exact ⟨k, hkf, by
          simp [renameTagEntries, getKey_unknown k hkf, Bind.bind, Except.bind]⟩
end

/-- C8: a record containing — at a position the transform visits — a
typed-value tag outside the known set makes the data-pipeline transform
fail with the unknown-type-tag error: no transformed record is produced
for it, the whole record's transform aborts. -/
theorem formatForDataPipeline_unknown_tag_fails :
    ∀ item : JVal, itemHasBadTag item = true →
      ∃ t, knownTag t = false ∧
        formatForDataPipeline item = Except.error ("Unknown AttributeValue key: " ++ t) := by
  intro item h
  exact fmtItem_err_of_bad item h

/-- Witness for C8: the record `{"a":{"X":"1"}}` with the unknown tag `X`. -/
theorem formatForDataPipeline_unknown_tag_fails_witness :
    itemHasBadTag (JVal.obj (.cons "a" (.obj (.cons "X" (.str "1") .nil)) .nil)) = true ∧
    ∃ t, knownTag t = false ∧
      formatForDataPipeline (JVal.obj (.cons "a" (.obj (.cons "X" (.str "1") .nil)) .nil))
        = Except.error ("Unknown AttributeValue key: " ++ t) :=
  ⟨by decide,
    formatForDataPipeline_unknown_tag_fails
      (JVal.obj (.cons "a" (.obj (.cons "X" (.str "1") .nil)) .nil)) (by decide)⟩
